import Mathlib

/-!
Verification of the shuffle/sort engine (package sortio, the reshuffle
operator and the task buffer) against its specification.

The Go source is shallowly embedded: pure functions become Lean
functions, the stateful readers become explicit state passing, Go int
arithmetic on the (non-negative) quantities involved becomes Nat / Int
arithmetic.  External collaborators that are not part of the source
under verification (the sequential reader contract, the spill store,
the container/heap priority-queue algorithms of the Go standard
library, the frame contract) are modelled from their documented
contracts, as noted at each definition.
-/

namespace BigsliceSpec

/-- Error model for reader results: either the distinguished
end-of-stream sentinel or an opaque error identified by a code. -/
inductive RErr where
  | eof : RErr
  | err : Nat → RErr
deriving DecidableEq

/-- Modelled from the spec: a sequential reader (the sliceio.Reader
contract).  It is a finite stream of rows followed by a terminal
behaviour: `none` means the reader ends with a clean end-of-stream,
`some e` means that once the rows are exhausted the reader fails with
the error `e`.  Each read call returns up to the requested capacity of
rows from the front of the stream; a read on the exhausted stream
returns zero rows together with the terminal signal. -/
structure SReader (α : Type) where
  rows : List α
  term : Option Nat
deriving DecidableEq

/-- A FrameBuffer as used by the merge reader: one source reader, the
window of rows obtained by the last fill (`data`, the valid rows of the
frame, so `data.length` is the Len field), the read offset `off`, the
frame capacity `cap` and the fill counter `n`. -/
structure Buf (α : Type) where
  src : SReader α
  data : List α
  off : Nat
  cap : Nat
  n : Nat
deriving DecidableEq

variable {α : Type}

/-- The current row of a FrameBuffer: the row of the frame at the read
offset (CopyIndex(row, Off)). -/
def Buf.cur [Inhabited α] (b : Buf α) : α :=
  b.data.getD b.off default

/-- Rows that a FrameBuffer can still deliver: the unread part of its
window followed by whatever its source still holds. -/
def Buf.rem (b : Buf α) : List α :=
  b.data.drop b.off ++ b.src.rows

/-- FrameBuffer.Fill: restore the window to the full capacity, read
from the source, set the valid length to the rows read and bump the
fill counter.  A read returning data never carries an error with our
reader model; a read of zero rows with clean termination becomes the
end-of-stream signal (offset reset happens before that check); any
other source error is returned with the offset left untouched, exactly
as the early return in the Go code does. -/
def Buf.fill (b : Buf α) : Buf α × Option RErr :=
  match b.src.rows with
  | [] =>
    match b.src.term with
    | none => ({ b with data := [], off := 0, n := b.n + 1 }, some RErr.eof)
    | some e => ({ b with data := [], n := b.n + 1 }, some (RErr.err e))
  | r :: rs =>
    ({ b with src := { rows := (r :: rs).drop b.cap, term := b.src.term },
              data := (r :: rs).take b.cap, off := 0, n := b.n + 1 }, none)

/-- Helper for the priority-queue contract: select a minimal element
(by the comparator applied to the current rows) from a list of buffers,
returning it together with the remaining buffers. -/
def selMin (lt : α → α → Bool) [Inhabited α] : List (Buf α) → Option (Buf α × List (Buf α))
  | [] => none
  | b :: rest =>
    match selMin lt rest with
    | none => some (b, [])
    | some (m, others) => if lt m.cur b.cur then some (m, b :: others) else some (b, rest)

/-- Modelled from the spec: the container/heap operations of the Go
standard library (heap.Init, heap.Fix, heap.Remove) are external
library code.  Their contract, as the merge reader relies on it, is
that after any of them the element at index 0 is minimal under Less
and the multiset of elements is unchanged.  This function realises
that contract: it moves a minimal buffer (under the comparator applied
to current rows) to the front. -/
def heapFix (lt : α → α → Bool) [Inhabited α] (l : List (Buf α)) : List (Buf α) :=
  match selMin lt l with
  | none => []
  | some (m, r) => m :: r

/-- The merge reader state: the sticky error and the priority queue of
buffers (head = minimal). -/
structure MergeState (α : Type) where
  err : Option RErr
  bufs : List (Buf α)
deriving DecidableEq

/-- The copy loop of mergeReader.Read.  Returns the rows copied into
the destination, the error raised by a refill (if any), and the queue
afterwards.  Each iteration copies the head buffer row, advances its
offset and either re-heapifies, refills (removing the buffer on
end-of-stream) or aborts on a refill error, exactly as the Go loop. -/
def mergeLoop (lt : α → α → Bool) [Inhabited α] : Nat → List (Buf α) → List α × Option RErr × List (Buf α)
  | 0, bufs => ([], none, bufs)
  | _ + 1, [] => ([], none, [])
  | mx + 1, b :: rest =>
    let row := b.cur
    let b1 : Buf α := { b with off := b.off + 1 }
    if b1.off = b1.data.length then
      match b1.fill with
      | (_, some RErr.eof) =>
        match mergeLoop lt mx (heapFix lt rest) with
        | (out, e, bufs2) => (row :: out, e, bufs2)
      | (b2, some (RErr.err e)) => ([row], some (RErr.err e), b2 :: rest)
      | (b2, none) =>
        match mergeLoop lt mx (heapFix lt (b2 :: rest)) with
        | (out, e, bufs2) => (row :: out, e, bufs2)
    else
      match mergeLoop lt mx (heapFix lt (b1 :: rest)) with
      | (out, e, bufs2) => (row :: out, e, bufs2)

/-- mergeReader.Read.  Takes the destination capacity (out.Len) and
returns the rows actually copied into the destination frame, the
integer count returned by the Go function, the error value returned,
and the new state.  A sticky error short-circuits; a refill error is
recorded and the call returns count 0 (even though rows may have been
copied); a call that copied nothing records and returns end-of-stream. -/
def MergeState.read (lt : α → α → Bool) [Inhabited α] (m : MergeState α) (mx : Nat) :
    List α × Nat × Option RErr × MergeState α :=
  match m.err with
  | some e => ([], 0, some e, m)
  | none =>
    match mergeLoop lt mx m.bufs with
    | (out, some e, bufs2) => (out, 0, some e, { err := some e, bufs := bufs2 })
    | (out, none, bufs2) =>
      if out.length = 0 then ([], 0, some RErr.eof, { err := some RErr.eof, bufs := bufs2 })
      else (out, out.length, none, { err := none, bufs := bufs2 })

/-- Initialisation loop of NewMergeReader: build one FrameBuffer of
the given capacity per input reader and fill it; a buffer whose fill
reports end-of-stream is skipped, any other fill error aborts the
construction. -/
def initBufs (cap : Nat) : List (SReader α) → Except RErr (List (Buf α))
  | [] => Except.ok []
  | r :: rs =>
    match Buf.fill { src := r, data := [], off := 0, cap := cap, n := 0 } with
    | (_, some RErr.eof) => initBufs cap rs
    | (_, some (RErr.err e)) => Except.error (RErr.err e)
    | (fb, none) =>
      match initBufs cap rs with
      | Except.error e => Except.error e
      | Except.ok bufs => Except.ok (fb :: bufs)

/-- NewMergeReader: fill one buffer per reader, dropping the empty
ones, then establish the priority-queue invariant (heap.Init). -/
def newMergeReader (lt : α → α → Bool) [Inhabited α] (cap : Nat) (readers : List (SReader α)) :
    Except RErr (MergeState α) :=
  match initBufs cap readers with
  | Except.error e => Except.error e
  | Except.ok bufs => Except.ok { err := none, bufs := heapFix lt bufs }

/-- All rows a queue of buffers can still deliver. -/
def allRem (bufs : List (Buf α)) : List α :=
  (bufs.map Buf.rem).flatten

/-- Drive a merge reader to completion: repeatedly read with the given
destination capacity, concatenating the delivered rows, stopping at the
first end-of-stream or error result (on which the returned count is 0
or the rows do not count as delivered). -/
def drain (lt : α → α → Bool) [Inhabited α] : Nat → MergeState α → Nat → List α
  | 0, _, _ => []
  | fuel + 1, m, c =>
    match m.read lt c with
    | (_, _, some _, _) => []
    | (out, _, none, m2) => out ++ drain lt fuel m2 c

/-- Read a merge reader to completion.  The fuel bound suffices because
every successful read with positive capacity delivers at least one of
the finitely many remaining rows. -/
def readAll (lt : α → α → Bool) [Inhabited α] (m : MergeState α) (c : Nat) : List α :=
  drain lt ((allRem m.bufs).length + 1) m c

/-! Ordering predicates.  The comparator is the strict Less of the
external Sorter collaborator; a list is in order for the merge when no
later element is Less than an earlier one. -/

/-- Row a precedes row b (is not strictly greater) under the
comparator. -/
def Rle (lt : α → α → Bool) (a b : α) : Prop := lt b a = false

/-- A list is non-decreasing under the comparator. -/
def SortedL (lt : α → α → Bool) (l : List α) : Prop := l.Pairwise (Rle lt)

instance {lt : α → α → Bool} (a b : α) : Decidable (Rle lt a b) :=
  inferInstanceAs (Decidable (lt b a = false))

instance {lt : α → α → Bool} (l : List α) : Decidable (SortedL lt l) :=
  inferInstanceAs (Decidable (l.Pairwise (Rle lt)))

/-- The comparator is asymmetric (half of being a strict total
preorder): two rows are never each strictly less than the other. -/
def LtAsymm (lt : α → α → Bool) : Prop :=
  ∀ a b, lt a b = true → lt b a = false

/-- The complement of the comparator is transitive (the other half of
being a strict total preorder). -/
def LtCompTrans (lt : α → α → Bool) : Prop :=
  ∀ a b c, Rle lt a b → Rle lt b c → Rle lt a c

theorem lt_irrefl_of_asymm {lt : α → α → Bool} (hA : LtAsymm lt) (a : α) : lt a a = false := by
  cases h : lt a a with
  | false => rfl
  | true =>
    have hf := hA a a h
    rw [h] at hf
    exact hf

/-- Well-formedness of an in-queue FrameBuffer: unexhausted window,
positive capacity, error-free source, and sorted remaining rows. -/
def WfBuf (lt : α → α → Bool) (b : Buf α) : Prop :=
  b.off < b.data.length ∧ 0 < b.cap ∧ b.src.term = none ∧ SortedL lt b.rem

def WfBufs (lt : α → α → Bool) (bufs : List (Buf α)) : Prop :=
  ∀ b ∈ bufs, WfBuf lt b

/-- The priority-queue invariant relied upon by the merge loop: the
head buffer holds a current row preceding the current row of every
other queued buffer. -/
def HeapMin (lt : α → α → Bool) [Inhabited α] : List (Buf α) → Prop
  | [] => True
  | b :: rest => ∀ x ∈ rest, Rle lt b.cur x.cur

theorem perm_flatten_of_perm {l₁ l₂ : List (List α)} (h : l₁.Perm l₂) :
    l₁.flatten.Perm l₂.flatten := by
  induction h with
  | nil => exact List.Perm.refl _
  | cons x _ ih => simpa using ih.append_left x
  | swap x y l =>
    simp only [List.flatten_cons, ← List.append_assoc]
    exact (List.perm_append_comm).append_right _
  | trans _ _ ih₁ ih₂ => exact ih₁.trans ih₂

theorem allRem_perm {bufs bufs' : List (Buf α)} (h : bufs.Perm bufs') :
    (allRem bufs).Perm (allRem bufs') :=
  perm_flatten_of_perm (h.map Buf.rem)

theorem selMin_none [Inhabited α] {lt : α → α → Bool} {l : List (Buf α)} :
    selMin lt l = none ↔ l = [] := by
  cases l with
  | nil => simp [selMin]
  | cons b rest =>
    simp only [selMin]
    cases h : selMin lt rest with
    | none => simp
    | some p =>
      obtain ⟨m, others⟩ := p
      by_cases hlt : lt m.cur b.cur = true <;> simp [hlt]

theorem selMin_perm [Inhabited α] {lt : α → α → Bool} :
    ∀ (l : List (Buf α)) (m : Buf α) (r : List (Buf α)),
      selMin lt l = some (m, r) → l.Perm (m :: r) := by
  intro l
  induction l with
  | nil => intro m r h; simp [selMin] at h
  | cons b rest ih =>
    intro m r h
    simp only [selMin] at h
    split at h
    · rename_i heq
      simp only [Option.some.injEq, Prod.mk.injEq] at h
      obtain ⟨h1, h2⟩ := h
      subst h1; subst h2
      rw [selMin_none.mp heq]
    · rename_i m' others heq
      have hperm := ih m' others heq
      split at h
      · simp only [Option.some.injEq, Prod.mk.injEq] at h
        obtain ⟨h1, h2⟩ := h
        subst h1; subst h2
        exact (hperm.cons b).trans (List.Perm.swap _ _ _)
      · simp only [Option.some.injEq, Prod.mk.injEq] at h
        obtain ⟨h1, h2⟩ := h
        subst h1; subst h2
        exact List.Perm.refl _

theorem selMin_min [Inhabited α] {lt : α → α → Bool} (hA : LtAsymm lt) (hT : LtCompTrans lt) :
    ∀ (l : List (Buf α)) (m : Buf α) (r : List (Buf α)),
      selMin lt l = some (m, r) → ∀ x ∈ l, Rle lt m.cur x.cur := by
  intro l
  induction l with
  | nil => intro m r h; simp [selMin] at h
  | cons b rest ih =>
    intro m r h
    simp only [selMin] at h
    split at h
    · rename_i heq
      simp only [Option.some.injEq, Prod.mk.injEq] at h
      obtain ⟨h1, _⟩ := h
      subst h1
      intro x hx
      have hnil := selMin_none.mp heq
      subst hnil
      simp only [List.mem_singleton] at hx
      subst hx
      exact lt_irrefl_of_asymm hA _
    · rename_i m' others heq
      have ihmin : ∀ x ∈ rest, Rle lt m'.cur x.cur := ih m' others heq
      split at h
      · rename_i hlt
        simp only [Option.some.injEq, Prod.mk.injEq] at h
        obtain ⟨h1, _⟩ := h
        subst h1
        intro x hx
        rcases List.mem_cons.mp hx with hxb | hxr
        · subst hxb; exact hA _ _ hlt
        · exact ihmin x hxr
      · rename_i hlt
        simp only [Option.some.injEq, Prod.mk.injEq] at h
        obtain ⟨h1, _⟩ := h
        subst h1
        intro x hx
        rcases List.mem_cons.mp hx with hxb | hxr
        · subst hxb; exact lt_irrefl_of_asymm hA _
        · have hbm : Rle lt b.cur m'.cur := by
            simpa [Rle] using hlt
          exact hT _ _ _ hbm (ihmin x hxr)

theorem heapFix_perm [Inhabited α] {lt : α → α → Bool} (l : List (Buf α)) :
    (heapFix lt l).Perm l := by
  unfold heapFix
  cases h : selMin lt l with
  | none => rw [selMin_none.mp h]
  | some p =>
    obtain ⟨m, r⟩ := p
    exact (selMin_perm l m r h).symm

theorem heapFix_min [Inhabited α] {lt : α → α → Bool} (hA : LtAsymm lt) (hT : LtCompTrans lt)
    (l : List (Buf α)) : HeapMin lt (heapFix lt l) := by
  unfold heapFix
  cases h : selMin lt l with
  | none => exact trivial
  | some p =>
    obtain ⟨m, r⟩ := p
    intro x hx
    have hxl : x ∈ l := (selMin_perm l m r h).symm.subset (List.mem_cons_of_mem m hx)
    exact selMin_min hA hT l m r h x hxl

theorem heapFix_wf [Inhabited α] {lt : α → α → Bool} {l : List (Buf α)}
    (h : WfBufs lt l) : WfBufs lt (heapFix lt l) :=
  fun b hb => h b ((heapFix_perm l).subset hb)

theorem list_getD_of_lt [Inhabited α] {l : List α} {n : Nat} (h : n < l.length) :
    l.getD n default = l[n] := by
  rw [List.getD_eq_getElem?_getD, List.getElem?_eq_getElem h]
  rfl

/-- Advancing the offset of a well-formed buffer peels its current row
off the front of its remaining rows. -/
theorem rem_cons_of_lt [Inhabited α] {b : Buf α} (h : b.off < b.data.length) :
    b.rem = b.cur :: Buf.rem { b with off := b.off + 1 } := by
  unfold Buf.rem Buf.cur
  rw [List.drop_eq_getElem_cons h, list_getD_of_lt h]
  rfl

/-- The current row of a well-formed buffer precedes every row the
buffer can still deliver. -/
theorem cur_le_rem [Inhabited α] {lt : α → α → Bool} (hA : LtAsymm lt) {b : Buf α}
    (hb : WfBuf lt b) : ∀ z ∈ b.rem, Rle lt b.cur z := by
  intro z hz
  obtain ⟨hoff, _, _, hsorted⟩ := hb
  rw [rem_cons_of_lt hoff] at hz hsorted
  rcases List.mem_cons.mp hz with hzc | hzr
  · subst hzc; exact lt_irrefl_of_asymm hA _
  · exact (List.pairwise_cons.mp hsorted).1 z hzr

/-- The current row at the head of the queue precedes every row still
deliverable by any queued buffer. -/
theorem head_le_allRem [Inhabited α] {lt : α → α → Bool} (hA : LtAsymm lt) (hT : LtCompTrans lt)
    {b : Buf α} {rest : List (Buf α)} (hW : WfBufs lt (b :: rest)) (hH : HeapMin lt (b :: rest)) :
    ∀ z ∈ allRem (b :: rest), Rle lt b.cur z := by
  intro z hz
  unfold allRem at hz
  simp only [List.map_cons, List.flatten_cons, List.mem_append] at hz
  rcases hz with hzb | hzr
  · exact cur_le_rem hA (hW b (List.mem_cons_self b rest)) z hzb
  · rw [List.mem_flatten] at hzr
    obtain ⟨l, hl, hzl⟩ := hzr
    rw [List.mem_map] at hl
    obtain ⟨x, hx, hxl⟩ := hl
    subst hxl
    have h1 : Rle lt b.cur x.cur := hH x hx
    have h2 : Rle lt x.cur z := cur_le_rem hA (hW x (List.mem_cons_of_mem b hx)) z hzl
    exact hT _ _ _ h1 h2

theorem allRem_cons (b : Buf α) (rest : List (Buf α)) :
    allRem (b :: rest) = b.rem ++ allRem rest := by
  unfold allRem
  simp

/-- The full specification of the copy loop of mergeReader.Read on a
well-formed queue: it never errors, preserves well-formedness and the
queue invariant, delivers rows that together with the surviving
remainder permute the original remainder, delivers them in order and
all preceding every surviving row, and delivers exactly the requested
count capped by availability. -/
def MLSpec (lt : α → α → Bool) [Inhabited α] (mx : Nat) (bufs : List (Buf α)) (out : List α)
    (e : Option RErr) (bufs2 : List (Buf α)) : Prop :=
  e = none ∧ WfBufs lt bufs2 ∧ HeapMin lt bufs2 ∧
    (out ++ allRem bufs2).Perm (allRem bufs) ∧
    SortedL lt out ∧
    (∀ y ∈ out, ∀ x ∈ allRem bufs2, Rle lt y x) ∧
    out.length = min mx (allRem bufs).length

theorem mergeLoop_assemble [Inhabited α] {lt : α → α → Bool} (hA : LtAsymm lt) (hT : LtCompTrans lt)
    {mx : Nat} {bufs0 next bufs2 : List (Buf α)} {row : α} {out : List α} {e : Option RErr}
    (hrem : allRem bufs0 = row :: allRem next)
    (hwf : WfBufs lt next)
    (hrow : ∀ z ∈ allRem next, Rle lt row z)
    (hstep : mergeLoop lt mx (heapFix lt next) = (out, e, bufs2))
    (ih : ∀ bufs out' e' bufs2', WfBufs lt bufs → HeapMin lt bufs →
      mergeLoop lt mx bufs = (out', e', bufs2') → MLSpec lt mx bufs out' e' bufs2') :
    MLSpec lt (mx + 1) bufs0 (row :: out) e bufs2 := by
  have hqwf : WfBufs lt (heapFix lt next) := heapFix_wf hwf
  have hqheap : HeapMin lt (heapFix lt next) := heapFix_min hA hT next
  have hq : MLSpec lt mx (heapFix lt next) out e bufs2 := ih _ _ _ _ hqwf hqheap hstep
  obtain ⟨he, hwf2, hheap2, hperm, hsorted, hcross, hlen⟩ := hq
  have hqperm : (allRem (heapFix lt next)).Perm (allRem next) := allRem_perm (heapFix_perm next)
  refine ⟨he, hwf2, hheap2, ?_, ?_, ?_, ?_⟩
  · rw [hrem]
    have p1 : ((row :: out) ++ allRem bufs2).Perm (row :: (out ++ allRem bufs2)) := by simp
    exact p1.trans ((hperm.trans hqperm).cons row)
  · refine List.pairwise_cons.mpr ⟨?_, hsorted⟩
    intro y hy
    have hy2 : y ∈ allRem (heapFix lt next) :=
      hperm.subset (List.mem_append_left _ hy)
    exact hrow y (hqperm.subset hy2)
  · intro y hy x hx
    rcases List.mem_cons.mp hy with hyr | hyo
    · subst hyr
      have hx2 : x ∈ allRem (heapFix lt next) :=
        hperm.subset (List.mem_append_right _ hx)
      exact hrow x (hqperm.subset hx2)
    · exact hcross y hyo x hx
  · have h1 : (allRem (heapFix lt next)).length = (allRem next).length := hqperm.length_eq
    have h2 : (allRem bufs0).length = (allRem next).length + 1 := by
      rw [hrem]; rfl
    simp only [List.length_cons, hlen, h1, h2]
    omega

theorem mergeLoop_spec [Inhabited α] {lt : α → α → Bool} (hA : LtAsymm lt) (hT : LtCompTrans lt) :
    ∀ (mx : Nat) (bufs : List (Buf α)) (out : List α) (e : Option RErr) (bufs2 : List (Buf α)),
      WfBufs lt bufs → HeapMin lt bufs →
      mergeLoop lt mx bufs = (out, e, bufs2) →
      MLSpec lt mx bufs out e bufs2 := by
  intro mx
  induction mx with
  | zero =>
    intro bufs out e bufs2 hW hH hrun
    simp only [mergeLoop, Prod.mk.injEq] at hrun
    obtain ⟨rfl, rfl, rfl⟩ := hrun
    exact ⟨rfl, hW, hH, by simp, List.Pairwise.nil, by simp, by simp⟩
  | succ mx ih =>
    intro bufs out e bufs2 hW hH hrun
    cases bufs with
    | nil =>
      simp only [mergeLoop, Prod.mk.injEq] at hrun
      obtain ⟨rfl, rfl, rfl⟩ := hrun
      exact ⟨rfl, hW, hH, by simp, List.Pairwise.nil, by simp, by simp [allRem]⟩
    | cons b rest =>
      obtain ⟨hoff, hcap, hterm, hsorted⟩ := hW b (List.mem_cons_self b rest)
      have hrem1 : b.rem = b.cur :: Buf.rem { b with off := b.off + 1 } := rem_cons_of_lt hoff
      have hsorted1 : SortedL lt (Buf.rem { b with off := b.off + 1 }) := by
        rw [hrem1] at hsorted
        exact (List.pairwise_cons.mp hsorted).2
      have hrowmin : ∀ z ∈ allRem (b :: rest), Rle lt b.cur z := head_le_allRem hA hT hW hH
      have hWrest : WfBufs lt rest := fun x hx => hW x (List.mem_cons_of_mem b hx)
      simp only [mergeLoop] at hrun
      by_cases hx : b.off + 1 = b.data.length
      · rw [if_pos hx] at hrun
        cases hrows : b.src.rows with
        | nil =>
          simp only [Buf.fill, hrows, hterm] at hrun
          rcases hres : mergeLoop lt mx (heapFix lt rest) with ⟨out', e', bufs2'⟩
          rw [hres] at hrun
          simp only [Prod.mk.injEq] at hrun
          obtain ⟨rfl, rfl, rfl⟩ := hrun
          have hrem2 : allRem (b :: rest) = b.cur :: allRem rest := by
            rw [allRem_cons, hrem1]
            have hnil : Buf.rem { b with off := b.off + 1 } = [] := by
              unfold Buf.rem
              simp [hrows, List.drop_eq_nil_of_le, hx.ge]
            rw [hnil]
            rfl
          refine mergeLoop_assemble hA hT hrem2 hWrest ?_ hres ih
          intro z hz
          exact hrowmin z (hrem2 ▸ List.mem_cons_of_mem _ hz)
        | cons r rs =>
          simp only [Buf.fill, hrows] at hrun
          set b2 : Buf α := { b with src := { rows := (r :: rs).drop b.cap, term := b.src.term }, data := (r :: rs).take b.cap, off := 0, n := b.n + 1 } with hb2
          rcases hres : mergeLoop lt mx (heapFix lt (b2 :: rest)) with ⟨out', e', bufs2'⟩
          rw [hres] at hrun
          simp only [Prod.mk.injEq] at hrun
          obtain ⟨rfl, rfl, rfl⟩ := hrun
          have hremb1 : Buf.rem { b with off := b.off + 1 } = r :: rs := by
            unfold Buf.rem
            simp [hrows, List.drop_eq_nil_of_le, hx.ge]
          have hremb2 : b2.rem = r :: rs := by
            rw [hb2]
            unfold Buf.rem
            simp [List.take_append_drop]
          have hrem2 : allRem (b :: rest) = b.cur :: allRem (b2 :: rest) := by
            rw [allRem_cons, hrem1, allRem_cons, hremb2, hremb1]
            rfl
          have hWnext : WfBufs lt (b2 :: rest) := by
            intro x hxm
            rcases List.mem_cons.mp hxm with hxb | hxr
            · subst hxb
              refine ⟨?_, ?_, ?_, ?_⟩
              · show (0 : Nat) < ((r :: rs).take b.cap).length
                simp only [List.length_take, List.length_cons]
                omega
              · show 0 < b.cap
                exact hcap
              · show b.src.term = none
                exact hterm
              · rw [hremb2, ← hremb1]
                exact hsorted1
            · exact hWrest x hxr
          refine mergeLoop_assemble hA hT hrem2 hWnext ?_ hres ih
          intro z hz
          exact hrowmin z (hrem2 ▸ List.mem_cons_of_mem _ hz)
      · rw [if_neg hx] at hrun
        rcases hres : mergeLoop lt mx (heapFix lt ({ b with off := b.off + 1 } :: rest)) with ⟨out', e', bufs2'⟩
        rw [hres] at hrun
        simp only [Prod.mk.injEq] at hrun
        obtain ⟨rfl, rfl, rfl⟩ := hrun
        have hrem2 : allRem (b :: rest) = b.cur :: allRem ({ b with off := b.off + 1 } :: rest) := by
          rw [allRem_cons, hrem1, allRem_cons]
          rfl
        have hWnext : WfBufs lt ({ b with off := b.off + 1 } :: rest) := by
          intro x hxm
          rcases List.mem_cons.mp hxm with hxb | hxr
          · subst hxb
            refine ⟨?_, hcap, hterm, hsorted1⟩
            show b.off + 1 < b.data.length
            omega
          · exact hWrest x hxr
        refine mergeLoop_assemble hA hT hrem2 hWnext ?_ hres ih
        intro z hz
        exact hrowmin z (hrem2 ▸ List.mem_cons_of_mem _ hz)

theorem drain_spec [Inhabited α] {lt : α → α → Bool} (hA : LtAsymm lt) (hT : LtCompTrans lt) :
    ∀ (fuel : Nat) (bufs : List (Buf α)) (c : Nat), 0 < c →
      WfBufs lt bufs → HeapMin lt bufs → (allRem bufs).length < fuel →
      (drain lt fuel ⟨none, bufs⟩ c).Perm (allRem bufs) ∧
        SortedL lt (drain lt fuel ⟨none, bufs⟩ c) := by
  intro fuel
  induction fuel with
  | zero =>
    intro bufs c hc hW hH hlen
    omega
  | succ fuel ih =>
    intro bufs c hc hW hH hlen
    rcases hrun : mergeLoop lt c bufs with ⟨out, e, bufs2⟩
    obtain ⟨rfl, hwf2, hheap2, hperm, hsorted, hcross, hlenout⟩ :=
      mergeLoop_spec hA hT c bufs out e bufs2 hW hH hrun
    by_cases hout : out.length = 0
    · have hempty : (allRem bufs).length = 0 := by omega
      have hnil : allRem bufs = [] := List.length_eq_zero.mp hempty
      have hdrain : drain lt (fuel + 1) ⟨none, bufs⟩ c = [] := by
        simp only [drain, MergeState.read, hrun, if_pos hout]
      rw [hdrain, hnil]
      exact ⟨List.Perm.refl _, List.Pairwise.nil⟩
    · have hdrain : drain lt (fuel + 1) ⟨none, bufs⟩ c =
          out ++ drain lt fuel ⟨none, bufs2⟩ c := by
        simp only [drain, MergeState.read, hrun, if_neg hout]
      have hlen2 : (allRem bufs2).length < fuel := by
        have := hperm.length_eq
        simp only [List.length_append] at this
        omega
      obtain ⟨ihperm, ihsorted⟩ := ih bufs2 c hc hwf2 hheap2 hlen2
      rw [hdrain]
      constructor
      · exact ((ihperm.append_left out).trans hperm)
      · simp only [SortedL] at hsorted ihsorted ⊢
        rw [List.pairwise_append]
        refine ⟨hsorted, ihsorted, ?_⟩
        intro y hy z hz
        exact hcross y hy z (ihperm.subset hz)

theorem initBufs_pure [Inhabited α] {lt : α → α → Bool} {cap : Nat} (hcap : 0 < cap) :
    ∀ (runs : List (List α)), (∀ l ∈ runs, SortedL lt l) →
      ∃ bufs, initBufs cap (runs.map (fun l => SReader.mk l none)) = Except.ok bufs ∧
        WfBufs lt bufs ∧ allRem bufs = runs.flatten ∧
        bufs.length = (runs.filter (fun l => !l.isEmpty)).length := by
  intro runs
  induction runs with
  | nil =>
    intro _
    exact ⟨[], rfl, fun b hb => absurd hb (List.not_mem_nil b), by simp [allRem], by simp⟩
  | cons l rest ih =>
    intro hs
    obtain ⟨bufs, hok, hwf, hrem, hlen⟩ := ih (fun x hx => hs x (List.mem_cons_of_mem l hx))
    cases l with
    | nil =>
      refine ⟨bufs, ?_, hwf, ?_, ?_⟩
      · simp only [List.map_cons, initBufs, Buf.fill]
        exact hok
      · simpa using hrem
      · simpa using hlen
    | cons a as =>
      refine ⟨⟨⟨(a :: as).drop cap, none⟩, (a :: as).take cap, 0, cap, 1⟩ :: bufs, ?_, ?_, ?_, ?_⟩
      · simp only [List.map_cons, initBufs, Buf.fill, hok]
      · intro x hx
        rcases List.mem_cons.mp hx with hxb | hxr
        · subst hxb
          refine ⟨?_, hcap, rfl, ?_⟩
          · show (0 : Nat) < ((a :: as).take cap).length
            simp only [List.length_take, List.length_cons]
            omega
          · show SortedL lt (((a :: as).take cap).drop 0 ++ (a :: as).drop cap)
            rw [List.drop_zero, List.take_append_drop]
            exact hs (a :: as) (List.mem_cons_self _ _)
        · exact hwf x hxr
      · show Buf.rem _ ++ allRem bufs = (a :: as) ++ rest.flatten
        rw [hrem]
        show (((a :: as).take cap).drop 0 ++ (a :: as).drop cap) ++ rest.flatten = _
        rw [List.drop_zero, List.take_append_drop]
      · simp only [List.filter_cons]
        simp only [List.isEmpty_cons, Bool.not_false, if_pos]
        simpa using hlen

/-- Shared correctness of NewMergeReader on error-free, individually
sorted runs: construction succeeds, the empty runs are dropped, and
reading the resulting merge reader to completion yields a sorted
permutation of the concatenation of all runs. -/
theorem mergeReaderOk [Inhabited α] {lt : α → α → Bool} (hA : LtAsymm lt) (hT : LtCompTrans lt)
    {cap c : Nat} (hcap : 0 < cap) (hc : 0 < c)
    (runs : List (List α)) (hs : ∀ l ∈ runs, SortedL lt l) :
    ∃ m, newMergeReader lt cap (runs.map (fun l => SReader.mk l none)) = Except.ok m ∧
      (readAll lt m c).Perm runs.flatten ∧ SortedL lt (readAll lt m c) ∧
      m.bufs.length = (runs.filter (fun l => !l.isEmpty)).length := by
  obtain ⟨bufs, hok, hwf, hrem, hlen⟩ := initBufs_pure hcap runs hs
  refine ⟨⟨none, heapFix lt bufs⟩, ?_, ?_, ?_, ?_⟩
  · simp only [newMergeReader, hok]
  · have hq := drain_spec hA hT ((allRem (heapFix lt bufs)).length + 1) (heapFix lt bufs) c hc
      (heapFix_wf hwf) (heapFix_min hA hT bufs) (by omega)
    have hqperm : (allRem (heapFix lt bufs)).Perm (allRem bufs) := allRem_perm (heapFix_perm bufs)
    exact (hq.1.trans hqperm).trans (hrem ▸ List.Perm.refl _)
  · exact (drain_spec hA hT ((allRem (heapFix lt bufs)).length + 1) (heapFix lt bufs) c hc
      (heapFix_wf hwf) (heapFix_min hA hT bufs) (by omega)).2
  · show (heapFix lt bufs).length = _
    rw [(heapFix_perm bufs).length_eq, hlen]

/-- The copy loop never raises the end-of-stream sentinel as its error
component: its only error exit is a refill failure. -/
theorem mergeLoop_no_eof [Inhabited α] (lt : α → α → Bool) :
    ∀ (mx : Nat) (bufs : List (Buf α)), (mergeLoop lt mx bufs).2.1 ≠ some RErr.eof := by
  intro mx
  induction mx with
  | zero => intro bufs; simp [mergeLoop]
  | succ mx ih =>
    intro bufs
    cases bufs with
    | nil => simp [mergeLoop]
    | cons b rest =>
      simp only [mergeLoop]
      by_cases hx : b.off + 1 = b.data.length
      · rw [if_pos hx]
        cases hrows : b.src.rows with
        | nil =>
          cases hterm : b.src.term with
          | none =>
            simp only [Buf.fill, hrows, hterm]
            rcases hres : mergeLoop lt mx (heapFix lt rest) with ⟨out', e', bufs2'⟩
            have := ih (heapFix lt rest)
            rw [hres] at this
            exact this
          | some ec =>
            simp only [Buf.fill, hrows, hterm]
            intro h
            exact absurd h (by simp)
        | cons r rs =>
          simp only [Buf.fill, hrows]
          rcases hres : mergeLoop lt mx (heapFix lt
            ({ b with src := { rows := (r :: rs).drop b.cap, term := b.src.term }, data := (r :: rs).take b.cap, off := 0, n := b.n + 1 } :: rest)) with ⟨out', e', bufs2'⟩
          have := ih (heapFix lt
            ({ b with src := { rows := (r :: rs).drop b.cap, term := b.src.term }, data := (r :: rs).take b.cap, off := 0, n := b.n + 1 } :: rest))
          rw [hres] at this
          exact this
      · rw [if_neg hx]
        rcases hres : mergeLoop lt mx (heapFix lt ({ b with off := b.off + 1 } :: rest)) with ⟨out', e', bufs2'⟩
        have := ih (heapFix lt ({ b with off := b.off + 1 } :: rest))
        rw [hres] at this
        exact this

/-- The comparator used in concrete evaluations: strict less-than on
naturals. -/
def natLt : Nat → Nat → Bool := fun a b => decide (a < b)

theorem natLt_asymm : LtAsymm natLt := by
  intro a b h
  simp only [natLt, decide_eq_true_eq] at h
  simp only [natLt, decide_eq_false_iff_not]
  omega

theorem natLt_comptrans : LtCompTrans natLt := by
  intro a b c h1 h2
  simp only [Rle, natLt, decide_eq_false_iff_not] at h1 h2 ⊢
  omega

/-- C2: for every set of readers, each already sorted under the
comparator, NewMergeReader succeeds, drops the readers that are empty
at the initial fill before the queue is built, and the rows emitted
across all Read calls until end-of-stream are in non-decreasing order
and form the multiset union of all input rows. -/
theorem NewMergeReader_sorted_union [Inhabited α] {lt : α → α → Bool}
    (hA : LtAsymm lt) (hT : LtCompTrans lt) {cap c : Nat} (hcap : 0 < cap) (hc : 0 < c)
    (inputs : List (List α)) (hs : ∀ l ∈ inputs, SortedL lt l) :
    ∃ m, newMergeReader lt cap (inputs.map (fun l => SReader.mk l none)) = Except.ok m ∧
      (readAll lt m c).Perm inputs.flatten ∧ SortedL lt (readAll lt m c) ∧
      m.bufs.length = (inputs.filter (fun l => !l.isEmpty)).length :=
  mergeReaderOk hA hT hcap hc inputs hs

/-- Witness for C2 at a concrete instance. -/
theorem NewMergeReader_sorted_union_witness :
    ∃ m, newMergeReader natLt 2 ([[1, 3], [2], []].map (fun l => SReader.mk l none)) = Except.ok m ∧
      (readAll natLt m 2).Perm [[1, 3], [2], []].flatten ∧ SortedL natLt (readAll natLt m 2) ∧
      m.bufs.length = ([[1, 3], [2], []].filter (fun l => !l.isEmpty)).length :=
  NewMergeReader_sorted_union natLt_asymm natLt_comptrans (by decide) (by decide)
    [[1, 3], [2], []] (by decide)

/-- C7 counterexample: a merge reader holding one buffered row whose
source then fails: Read copies the row into the destination but
returns count 0, so the returned count is not the number of rows
copied. -/
theorem mergeRead_count_counterexample :
    (MergeState.read natLt ⟨none, [⟨⟨[], some 3⟩, [5], 0, 4, 1⟩]⟩ 2).1 = [5] ∧
    (MergeState.read natLt ⟨none, [⟨⟨[], some 3⟩, [5], 0, 4, 1⟩]⟩ 2).2.1 = 0 ∧
    ¬ (MergeState.read natLt ⟨none, [⟨⟨[], some 3⟩, [5], 0, 4, 1⟩]⟩ 2).2.1 =
      (MergeState.read natLt ⟨none, [⟨⟨[], some 3⟩, [5], 0, 4, 1⟩]⟩ 2).1.length := by
  refine ⟨rfl, rfl, ?_⟩
  decide

/-- C7 as amended: Read returns as its count exactly the number of
rows it copied, except on a call on which a buffer refill fails with a
non-end-of-stream error while no error was yet recorded, in which case
it returns 0 regardless of the rows already copied. -/
theorem mergeRead_count_amended [Inhabited α] (lt : α → α → Bool) (m : MergeState α) (mx : Nat)
    (out : List α) (ret : Nat) (e : Option RErr) (m2 : MergeState α)
    (h : m.read lt mx = (out, ret, e, m2)) :
    (m.err = none → (∃ ec, e = some (RErr.err ec)) → ret = 0) ∧
    ((m.err ≠ none ∨ ∀ ec, e ≠ some (RErr.err ec)) → ret = out.length) := by
  obtain ⟨merr, mbufs⟩ := m
  cases merr with
  | some e0 =>
    simp only [MergeState.read, Prod.mk.injEq] at h
    obtain ⟨rfl, rfl, rfl, rfl⟩ := h
    exact ⟨fun hn => absurd hn (by simp), fun _ => rfl⟩
  | none =>
    simp only [MergeState.read] at h
    rcases hrun : mergeLoop lt mx mbufs with ⟨out0, e0, bufs0⟩
    rw [hrun] at h
    cases e0 with
    | some ec =>
      simp only [Prod.mk.injEq] at h
      obtain ⟨rfl, rfl, rfl, rfl⟩ := h
      cases ec with
      | eof =>
        have hno := mergeLoop_no_eof lt mx mbufs
        rw [hrun] at hno
        exact absurd rfl hno
      | err n =>
        refine ⟨fun _ _ => rfl, fun hyp => ?_⟩
        rcases hyp with hyp | hyp
        · exact absurd rfl hyp
        · exact absurd rfl (hyp n)
    | none =>
      by_cases hz : out0.length = 0
      · simp only [if_pos hz, Prod.mk.injEq] at h
        obtain ⟨rfl, rfl, rfl, rfl⟩ := h
        exact ⟨fun _ _ => rfl, fun _ => rfl⟩
      · simp only [if_neg hz, Prod.mk.injEq] at h
        obtain ⟨rfl, rfl, rfl, rfl⟩ := h
        refine ⟨fun _ hex => ?_, fun _ => rfl⟩
        rcases hex with ⟨ec, hec⟩
        exact absurd hec (by simp)

/-- Witness for C7 as amended: a refill failure after one copied row
yields count 0 while one row sits in the destination. -/
theorem mergeRead_count_amended_witness :
    (MergeState.read natLt ⟨none, [⟨⟨[], some 3⟩, [5], 0, 4, 1⟩]⟩ 2).1.length = 1 ∧
    (MergeState.read natLt ⟨none, [⟨⟨[], some 3⟩, [5], 0, 4, 1⟩]⟩ 2).2.1 = 0 := by
  refine ⟨by decide, ?_⟩
  exact (mergeRead_count_amended natLt ⟨none, [⟨⟨[], some 3⟩, [5], 0, 4, 1⟩]⟩ 2
    (MergeState.read natLt ⟨none, [⟨⟨[], some 3⟩, [5], 0, 4, 1⟩]⟩ 2).1
    (MergeState.read natLt ⟨none, [⟨⟨[], some 3⟩, [5], 0, 4, 1⟩]⟩ 2).2.1
    (MergeState.read natLt ⟨none, [⟨⟨[], some 3⟩, [5], 0, 4, 1⟩]⟩ 2).2.2.1
    (MergeState.read natLt ⟨none, [⟨⟨[], some 3⟩, [5], 0, 4, 1⟩]⟩ 2).2.2.2
    rfl).1 rfl ⟨3, by decide⟩

/-- C10: a Read call with a zero-length destination on a merge reader
with no recorded error and a non-empty queue copies nothing, returns
count 0 with the end-of-stream signal, permanently records
end-of-stream while retaining the buffered rows, and every subsequent
Read call returns end-of-stream again, so the buffered rows are never
delivered. -/
theorem mergeRead_zero_destination [Inhabited α] (lt : α → α → Bool) (m : MergeState α)
    (herr : m.err = none) (_hne : allRem m.bufs ≠ []) :
    m.read lt 0 = ([], 0, some RErr.eof, { err := some RErr.eof, bufs := m.bufs }) ∧
    (∀ mx, MergeState.read lt { err := some RErr.eof, bufs := m.bufs } mx =
      ([], 0, some RErr.eof, { err := some RErr.eof, bufs := m.bufs })) := by
  constructor
  · unfold MergeState.read
    rw [herr]
    simp only [mergeLoop]
    rfl
  · intro mx
    unfold MergeState.read
    rfl

/-- Witness for C10 at a concrete reader holding an undelivered row. -/
theorem mergeRead_zero_destination_witness :
    MergeState.read natLt ⟨none, [⟨⟨[], none⟩, [7], 0, 4, 1⟩]⟩ 0 =
      ([], 0, some RErr.eof, { err := some RErr.eof, bufs := [⟨⟨[], none⟩, [7], 0, 4, 1⟩] }) ∧
    (∀ mx, MergeState.read natLt { err := some RErr.eof, bufs := [⟨⟨[], none⟩, [7], 0, 4, 1⟩] } mx =
      ([], 0, some RErr.eof, { err := some RErr.eof, bufs := [⟨⟨[], none⟩, [7], 0, 4, 1⟩] })) :=
  mergeRead_zero_destination natLt ⟨none, [⟨⟨[], none⟩, [7], 0, 4, 1⟩]⟩ rfl (by decide)

/-! Partitioned task buffer (taskBuffer): layout is partition, then
batches appended over time, then column vectors of equal length. -/

/-- A record batch stored in a task buffer: a list of column vectors.
The row count of a batch is the length of its first column, matching
the cols[0].Len() measurement in the source. -/
abbrev Batch (α : Type) := List (List α)

/-- Row count of a batch: the length of its first column. -/
def colLen (b : Batch α) : Nat := (b.headD []).length

/-- TaskBuffer: partition, then slices (batches), then columns. -/
abbrev TaskBuffer (α : Type) := List (List (Batch α))

/-- The walk of taskBuffer.Slice: scan batches in order, accumulating
row counts in n, returning the batch covering the offset together with
the local offset, or (nil, -1) when the offset lies beyond all rows. -/
def sliceFind : List (Batch α) → Int → Int → Option (Batch α) × Int
  | [], _, _ => (none, -1)
  | cols :: rest, off, n =>
    let l : Int := colLen cols
    if n + l > off then (some cols, off - n) else sliceFind rest off (n + l)

/-- Modelled from the spec: the AllPartitions sentinel constant is
declared outside the verified source; the partition selector is
modelled as an Option, none meaning all partitions.  The batches a
Slice call walks: either every partition in order or the single
selected partition (selecting a nonexistent partition is a caller
error, modelled as the empty scope). -/
def scopeBatches (b : TaskBuffer α) (p : Option Nat) : List (Batch α) :=
  match p with
  | none => b.flatten
  | some i => b.getD i []

/-- taskBuffer.Slice for a scope and a global offset. -/
def tbSlice (b : TaskBuffer α) (p : Option Nat) (off : Int) : Option (Batch α) × Int :=
  sliceFind (scopeBatches b p) off 0

/-- The row of a batch at a local offset: one value per column. -/
def rowAt [Inhabited α] (cols : Batch α) (j : Nat) : List α :=
  cols.map (fun c => c.getD j default)

/-- All rows of a batch in order. -/
def batchRows [Inhabited α] (cols : Batch α) : List (List α) :=
  (List.range (colLen cols)).map (rowAt cols)

/-- All rows of a sequence of batches in append order. -/
def allRows [Inhabited α] (bs : List (Batch α)) : List (List α) :=
  (bs.map batchRows).flatten

/-- Total row count of a sequence of batches. -/
def batchesLen (bs : List (Batch α)) : Nat := (bs.map colLen).sum

/-- Well-formedness of a batch as the source assumes it: at least one
column (cols[0] is accessed unconditionally) and equal column
lengths. -/
def BatchWf (b : Batch α) : Prop := b ≠ [] ∧ ∀ c ∈ b, c.length = colLen b

instance (b : Batch α) : Decidable (BatchWf b) :=
  match b with
  | [] => isFalse (fun h => h.1 rfl)
  | c :: cs =>
    decidable_of_iff (∀ x ∈ c :: cs, x.length = colLen (c :: cs))
      (Iff.intro (fun h => ⟨List.cons_ne_nil c cs, h⟩) (fun h => h.2))

theorem sliceFind_shift :
    ∀ (bs : List (Batch α)) (off n : Int), sliceFind bs off n = sliceFind bs (off - n) 0 := by
  intro bs
  induction bs with
  | nil => intro off n; rfl
  | cons cols rest ih =>
    intro off n
    simp only [sliceFind]
    by_cases hcond : n + (colLen cols : Int) > off
    · rw [if_pos hcond, if_pos (by omega)]
      simp
    · rw [if_neg hcond, if_neg (by omega)]
      rw [ih off (n + colLen cols), ih (off - n) (0 + colLen cols)]
      have harg : off - (n + (colLen cols : Int)) = off - n - (0 + colLen cols) := by ring
      rw [harg]

theorem batchesLen_cons (cols : Batch α) (rest : List (Batch α)) :
    batchesLen (cols :: rest) = colLen cols + batchesLen rest := by
  simp [batchesLen]

theorem allRows_cons [Inhabited α] (cols : Batch α) (rest : List (Batch α)) :
    allRows (cols :: rest) = batchRows cols ++ allRows rest := by
  simp [allRows]

theorem batchRows_length [Inhabited α] (cols : Batch α) :
    (batchRows cols).length = colLen cols := by
  simp [batchRows]

theorem sliceFind_spec [Inhabited α] :
    ∀ (bs : List (Batch α)), (∀ cols ∈ bs, BatchWf cols) →
      ∀ (o : Nat),
        (o < batchesLen bs →
          ∃ pre cols post, bs = pre ++ cols :: post ∧ batchesLen pre ≤ o ∧
            o - batchesLen pre < colLen cols ∧
            sliceFind bs (o : Int) 0 = (some cols, ((o - batchesLen pre : Nat) : Int)) ∧
            (allRows bs)[o]? = some (rowAt cols (o - batchesLen pre))) ∧
        (batchesLen bs ≤ o → sliceFind bs (o : Int) 0 = (none, -1)) := by
  intro bs
  induction bs with
  | nil =>
    intro _ o
    exact ⟨fun h => absurd h (by simp [batchesLen]), fun _ => rfl⟩
  | cons cols rest ih =>
    intro hwf o
    have hwfrest : ∀ c ∈ rest, BatchWf c := fun c hc => hwf c (List.mem_cons_of_mem cols hc)
    constructor
    · intro ho
      by_cases hin : o < colLen cols
      · refine ⟨[], cols, rest, rfl, by simp [batchesLen], by simpa [batchesLen], ?_, ?_⟩
        · simp only [sliceFind]
          rw [if_pos (by omega)]
          simp [batchesLen]
        · rw [allRows_cons, List.getElem?_append_left (by rw [batchRows_length]; omega)]
          simp only [batchRows, List.getElem?_map, List.getElem?_range, hin, if_pos]
          simp [batchesLen]
      · have hle : colLen cols ≤ o := Nat.le_of_not_lt hin
        have ho' : o - colLen cols < batchesLen rest := by
          rw [batchesLen_cons] at ho
          omega
        obtain ⟨pre, cols', post, hsplit, hpre, hloc, hfind, hrow⟩ := (ih hwfrest (o - colLen cols)).1 ho'
        refine ⟨cols :: pre, cols', post, by rw [hsplit, List.cons_append], ?_, ?_, ?_, ?_⟩
        · rw [batchesLen_cons]; omega
        · rw [batchesLen_cons]; omega
        · simp only [sliceFind]
          rw [if_neg (by omega)]
          rw [sliceFind_shift]
          have harg : (o : Int) - (0 + (colLen cols : Int)) = ((o - colLen cols : Nat) : Int) := by
            omega
          rw [harg, hfind]
          rw [batchesLen_cons]
          have : o - (colLen cols + batchesLen pre) = o - colLen cols - batchesLen pre := by omega
          rw [this]
        · rw [allRows_cons, List.getElem?_append_right (by rw [batchRows_length]; omega)]
          rw [batchRows_length, hrow, batchesLen_cons]
          have : o - (colLen cols + batchesLen pre) = o - colLen cols - batchesLen pre := by omega
          rw [this]
    · intro ho
      rw [batchesLen_cons] at ho
      simp only [sliceFind]
      rw [if_neg (by omega)]
      rw [sliceFind_shift]
      have harg : (o : Int) - (0 + (colLen cols : Int)) = ((o - colLen cols : Nat) : Int) := by
        omega
      rw [harg]
      exact (ih hwfrest (o - colLen cols)).2 (by omega)

/-- C3: for a partitioned task buffer, Slice at a valid global offset
of the addressed scope returns the column vectors of the batch holding
that row together with the local offset (the global offset minus the
rows accumulated before that batch), and the addressed row equals the
row at the global offset of the scope; at an offset at or beyond the
total row count it returns no data and the sentinel offset -1. -/
theorem tbSlice_spec [Inhabited α] (b : TaskBuffer α) (p : Option Nat) (o : Nat)
    (hwf : ∀ cols ∈ scopeBatches b p, BatchWf cols) :
    (o < batchesLen (scopeBatches b p) →
      ∃ pre cols post, scopeBatches b p = pre ++ cols :: post ∧ batchesLen pre ≤ o ∧
        o - batchesLen pre < colLen cols ∧
        tbSlice b p (o : Int) = (some cols, ((o - batchesLen pre : Nat) : Int)) ∧
        (allRows (scopeBatches b p))[o]? = some (rowAt cols (o - batchesLen pre))) ∧
    (batchesLen (scopeBatches b p) ≤ o → tbSlice b p (o : Int) = (none, -1)) :=
  sliceFind_spec (scopeBatches b p) hwf o

/-- Witness for C3: a one-partition buffer with two appended batches,
sliced at a covered offset and at an offset beyond the total. -/
theorem tbSlice_spec_witness :
    (2 < batchesLen (scopeBatches [[[[1, 2], [10, 20]], [[3], [30]]]] (some 0)) →
      ∃ pre cols post,
        scopeBatches [[[[1, 2], [10, 20]], [[3], [30]]]] (some 0) = pre ++ cols :: post ∧
        batchesLen pre ≤ 2 ∧ 2 - batchesLen pre < colLen cols ∧
        tbSlice [[[[1, 2], [10, 20]], [[3], [30]]]] (some 0) ((2 : Nat) : Int) =
          (some cols, ((2 - batchesLen pre : Nat) : Int)) ∧
        (allRows (scopeBatches [[[[1, 2], [10, 20]], [[3], [30]]]] (some 0)))[2]? =
          some (rowAt cols (2 - batchesLen pre))) ∧
    (batchesLen (scopeBatches [[[[1, 2], [10, 20]], [[3], [30]]]] (some 0)) ≤ 2 →
      tbSlice [[[[1, 2], [10, 20]], [[3], [30]]]] (some 0) ((2 : Nat) : Int) = (none, -1)) :=
  tbSlice_spec [[[[1, 2], [10, 20]], [[3], [30]]]] (some 0) 2 (by decide)

/-! The sequential reader over a task buffer (taskBufferReader). -/

/-- taskBufferReader: a cursor (partition index i, batch index j, row
index k) over a task buffer. -/
structure TBR (α : Type) where
  q : TaskBuffer α
  i : Nat
  j : Nat
  k : Nat
deriving DecidableEq

/-- The body of taskBufferReader.Read: the skip loop advances the
cursor past exhausted batches and partitions; on end of data it
returns the end-of-stream signal with the cursor as it stands; having
found a batch with unread rows it copies up to the destination
capacity c from each column and advances the row index.  A result of
none models a Go panic from an out-of-range cursor (or an empty column
list), which well-formed readers never reach.  The copied column
segments are returned for the columns of the batch (the Frame contract
guarantees the destination has the same schema). -/
def tbrReadAux (q : TaskBuffer α) (c : Nat) (i j k : Nat) :
    Option (Batch α × Nat × Option RErr × Nat × Nat × Nat) :=
  if q.length = i then some ([], 0, some RErr.eof, i, j, k)
  else if _h1 : i < q.length then
    if (q.getD i []).length = j then tbrReadAux q c (i + 1) 0 0
    else if _h2 : j < (q.getD i []).length then
      match (q.getD i []).getD j [] with
      | [] => none
      | c0 :: cs =>
        if c0.length = k then tbrReadAux q c i (j + 1) 0
        else if k < c0.length then
          some ((c0 :: cs).map (fun col => (col.drop k).take (min c (c0.length - k))),
            min c (c0.length - k), none, i, j, k + min c (c0.length - k))
        else none
    else none
  else none
termination_by (q.length - i, (q.getD i []).length - j)
decreasing_by
  · apply Prod.Lex.left
    omega
  · apply Prod.Lex.right
    omega

/-- taskBufferReader.Read on the reader state. -/
def TBR.read (r : TBR α) (c : Nat) : Option (Batch α × Nat × Option RErr × TBR α) :=
  match tbrReadAux r.q c r.i r.j r.k with
  | none => none
  | some (cols, n, e, i, j, k) => some (cols, n, e, ⟨r.q, i, j, k⟩)

/-- Combined behaviour of the taskBufferReader read loop: it never
produces a non-end-of-stream error, and when it reports end-of-stream
it returns zero rows and leaves the partition cursor at the end of the
buffer, so a repeated call reports end-of-stream again. -/
theorem tbrReadAux_spec (q : TaskBuffer α) (c : Nat) :
    ∀ (i j k : Nat) (res : Batch α × Nat × Option RErr × Nat × Nat × Nat),
      tbrReadAux q c i j k = some res →
      (∀ ec, res.2.2.1 ≠ some (RErr.err ec)) ∧
      (res.2.2.1 = some RErr.eof →
        res = ([], 0, some RErr.eof, q.length, res.2.2.2.2.1, res.2.2.2.2.2)) := by
  intro i j k
  induction i, j, k using tbrReadAux.induct q c with
  | case1 j k =>
    intro res hres
    unfold tbrReadAux at hres
    rw [if_pos rfl] at hres
    injection hres with h
    subst h
    exact ⟨by simp, fun _ => rfl⟩
  | case2 i k hne hlt ih =>
    intro res hres
    unfold tbrReadAux at hres
    rw [if_neg hne, dif_pos hlt, if_pos rfl] at hres
    exact ih res hres
  | case3 i j k hne hlt hjne hjlt hnil =>
    intro res hres
    unfold tbrReadAux at hres
    rw [if_neg hne, dif_pos hlt, if_neg hjne, dif_pos hjlt, hnil] at hres
    simp at hres
  | case4 i j hne hlt hjne hjlt c0 cs hbatch ih =>
    intro res hres
    unfold tbrReadAux at hres
    rw [if_neg hne, dif_pos hlt, if_neg hjne, dif_pos hjlt, hbatch] at hres
    simp only [if_pos rfl] at hres
    exact ih res hres
  | case5 i j k hne hlt hjne hjlt c0 cs hbatch hkne hklt =>
    intro res hres
    unfold tbrReadAux at hres
    rw [if_neg hne, dif_pos hlt, if_neg hjne, dif_pos hjlt, hbatch] at hres
    simp only [if_neg hkne, if_pos hklt] at hres
    injection hres with h
    subst h
    exact ⟨by simp, fun h => absurd h (by simp)⟩
  | case6 i j k hne hlt hjne hjlt c0 cs hbatch hkne hknlt =>
    intro res hres
    unfold tbrReadAux at hres
    rw [if_neg hne, dif_pos hlt, if_neg hjne, dif_pos hjlt, hbatch] at hres
    simp only [if_neg hkne, if_neg hknlt] at hres
    simp at hres
  | case7 i j k hne hlt hjne hjnlt =>
    intro res hres
    unfold tbrReadAux at hres
    rw [if_neg hne, dif_pos hlt, if_neg hjne, dif_neg hjnlt] at hres
    simp at hres
  | case8 i j k hne hnlt =>
    intro res hres
    unfold tbrReadAux at hres
    rw [if_neg hne, dif_neg hnlt] at hres
    simp at hres

/-- Any error value returned by mergeReader.Read is recorded in the
sticky error field of the resulting state. -/
theorem read_err_recorded [Inhabited α] (lt : α → α → Bool) (m : MergeState α) (mx : Nat)
    (out : List α) (ret : Nat) (e : RErr) (m2 : MergeState α)
    (h : m.read lt mx = (out, ret, some e, m2)) : m2.err = some e := by
  obtain ⟨merr, mbufs⟩ := m
  cases merr with
  | some e0 =>
    simp only [MergeState.read, Prod.mk.injEq] at h
    obtain ⟨rfl, rfl, he, rfl⟩ := h
    simpa using he
  | none =>
    simp only [MergeState.read] at h
    rcases hrun : mergeLoop lt mx mbufs with ⟨out0, e0, bufs0⟩
    rw [hrun] at h
    cases e0 with
    | some ec =>
      simp only [Prod.mk.injEq] at h
      obtain ⟨rfl, rfl, he, rfl⟩ := h
      simpa using he
    | none =>
      by_cases hz : out0.length = 0
      · simp only [if_pos hz, Prod.mk.injEq] at h
        obtain ⟨rfl, rfl, he, rfl⟩ := h
        simpa using he
      · simp only [if_neg hz, Prod.mk.injEq] at h
        obtain ⟨rfl, rfl, he, rfl⟩ := h
        exact absurd he.symm (by simp)

/-- A merge reader with a recorded error returns that error and leaves
its state unchanged on every Read call. -/
theorem read_of_err [Inhabited α] (lt : α → α → Bool) (m : MergeState α) (e : RErr)
    (herr : m.err = some e) (mx : Nat) : m.read lt mx = ([], 0, some e, m) := by
  unfold MergeState.read
  rw [herr]

/-- C6: once a merge reader Read call has returned any error it is
recorded, and every subsequent call returns the same error value
(including end-of-stream, which is returned again without failing)
with the state unchanged; a task-buffer reader never returns a
non-end-of-stream error, and once it has returned end-of-stream every
subsequent call returns end-of-stream again with the state
unchanged. -/
theorem read_errors_sticky [Inhabited α] (lt : α → α → Bool) :
    (∀ (m : MergeState α) (mx : Nat) (out : List α) (ret : Nat) (e : RErr) (m2 : MergeState α),
      m.read lt mx = (out, ret, some e, m2) →
      ∀ mx2, m2.read lt mx2 = ([], 0, some e, m2)) ∧
    (∀ (r : TBR α) (c : Nat) (cols : Batch α) (n : Nat) (e : Option RErr) (r2 : TBR α),
      r.read c = some (cols, n, e, r2) →
      (∀ ec, e ≠ some (RErr.err ec)) ∧
      (e = some RErr.eof → ∀ c2, r2.read c2 = some ([], 0, some RErr.eof, r2))) := by
  constructor
  · intro m mx out ret e m2 h mx2
    exact read_of_err lt m2 e (read_err_recorded lt m mx out ret e m2 h) mx2
  · intro r c cols n e r2 h
    unfold TBR.read at h
    rcases haux : tbrReadAux r.q c r.i r.j r.k with _ | res
    · rw [haux] at h
      exact absurd h (by simp)
    · rw [haux] at h
      obtain ⟨cols0, n0, e0, i0, j0, k0⟩ := res
      simp only [Option.some.injEq, Prod.mk.injEq] at h
      obtain ⟨rfl, rfl, rfl, rfl⟩ := h
      have hspec := tbrReadAux_spec r.q c r.i r.j r.k (cols0, n0, e0, i0, j0, k0) haux
      refine ⟨hspec.1, ?_⟩
      intro heof c2
      have hshape := hspec.2 heof
      simp only [Prod.mk.injEq] at hshape
      obtain ⟨rfl, rfl, -, rfl, -, -⟩ := hshape
      unfold TBR.read
      have hstep : tbrReadAux r.q c2 r.q.length j0 k0 =
          some ([], 0, some RErr.eof, r.q.length, j0, k0) := by
        unfold tbrReadAux
        rw [if_pos rfl]
      rw [hstep]

/-- Witness for C6: an exhausted merge reader keeps signalling
end-of-stream, and an exhausted task-buffer reader does too. -/
theorem read_errors_sticky_witness :
    MergeState.read natLt ⟨some RErr.eof, []⟩ 5 = ([], 0, some RErr.eof, ⟨some RErr.eof, []⟩) ∧
    TBR.read (⟨[[[[1]]]], 1, 0, 0⟩ : TBR Nat) 7 =
      some ([], 0, some RErr.eof, ⟨[[[[1]]]], 1, 0, 0⟩) := by
  constructor
  · exact (read_errors_sticky natLt).1 ⟨none, []⟩ 1 [] 0 RErr.eof ⟨some RErr.eof, []⟩ (by decide) 5
  · exact ((read_errors_sticky natLt).2 (⟨[[[[1]]]], 0, 0, 1⟩ : TBR Nat) 3 [] 0 (some RErr.eof)
      ⟨[[[[1]]]], 1, 0, 0⟩ (by simp [TBR.read, tbrReadAux])).2 rfl 7

/-! The read-ahead buffer fill bookkeeping (FrameBuffer.Fill), claim
C5.  The row contents moved by a fill are carried by the frame and
modelled with the merge reader; this model carries the bookkeeping
fields the Fill method manipulates: the window length and capacity of
the embedded frame, the valid length Len, the read offset Off and the
fill counter N, together with the (rows, error) outcome of the one
read call Fill performs. -/

structure FB where
  wlen : Nat
  wcap : Nat
  len : Nat
  off : Nat
  n : Nat
deriving DecidableEq

/-- FrameBuffer.Fill as a function of the outcome (rn rows, rerr) of
the embedded read call: restore the window to full capacity if it has
unread capacity, record the valid length and bump the fill counter,
return a non-end-of-stream error immediately (offset untouched),
normalise end-of-stream with rows to no error, reset the offset, and
normalise zero rows without error to end-of-stream. -/
def FB.fillStep (f : FB) (rn : Nat) (rerr : Option RErr) : FB × Option RErr :=
  let f := if f.wlen < f.wcap then { f with wlen := f.wcap } else f
  let f := { f with len := rn, n := f.n + 1 }
  match rerr with
  | some (RErr.err e) => (f, some (RErr.err e))
  | _ =>
    let err1 : Option RErr := if rerr = some RErr.eof ∧ 0 < rn then none else rerr
    let f := { f with off := 0 }
    if f.len = 0 ∧ err1 = none then (f, some RErr.eof) else (f, err1)

/-- C5 counterexample: on a non-end-of-stream source error Fill
returns the error unchanged but does not reset the read offset to
zero, against the claim that the offset is always reset. -/
theorem fill_offset_counterexample :
    (FB.fillStep ⟨5, 5, 3, 1, 0⟩ 0 (some (RErr.err 7))).2 = some (RErr.err 7) ∧
    (FB.fillStep ⟨5, 5, 3, 1, 0⟩ 0 (some (RErr.err 7))).1.off = 1 ∧
    ¬ (FB.fillStep ⟨5, 5, 3, 1, 0⟩ 0 (some (RErr.err 7))).1.off = 0 := by
  exact ⟨rfl, rfl, by decide⟩

/-- C5 as amended: Fill restores the window to full capacity when it
has unread capacity, sets the valid length to the rows read and bumps
the fill counter in every outcome; end-of-stream with rows is
normalised to no error, zero rows with no error to end-of-stream, and
in those cases and the plain success case the read offset is reset to
zero; a non-end-of-stream source error is returned unchanged with the
read offset left untouched. -/
theorem fill_step_amended (f : FB) (rn : Nat) (rerr : Option RErr) :
    ((f.wlen < f.wcap → (FB.fillStep f rn rerr).1.wlen = f.wcap) ∧
     (¬ f.wlen < f.wcap → (FB.fillStep f rn rerr).1.wlen = f.wlen) ∧
     (FB.fillStep f rn rerr).1.wcap = f.wcap ∧
     (FB.fillStep f rn rerr).1.len = rn ∧
     (FB.fillStep f rn rerr).1.n = f.n + 1) ∧
    (rerr = some RErr.eof → 0 < rn →
      (FB.fillStep f rn rerr).2 = none ∧ (FB.fillStep f rn rerr).1.off = 0) ∧
    (rerr = none → rn = 0 →
      (FB.fillStep f rn rerr).2 = some RErr.eof ∧ (FB.fillStep f rn rerr).1.off = 0) ∧
    (rerr = none → 0 < rn →
      (FB.fillStep f rn rerr).2 = none ∧ (FB.fillStep f rn rerr).1.off = 0) ∧
    (rerr = some RErr.eof → rn = 0 →
      (FB.fillStep f rn rerr).2 = some RErr.eof ∧ (FB.fillStep f rn rerr).1.off = 0) ∧
    (∀ ec, rerr = some (RErr.err ec) →
      (FB.fillStep f rn rerr).2 = some (RErr.err ec) ∧
      (FB.fillStep f rn rerr).1.off = f.off) := by
  obtain ⟨wl, wc, l0, o0, n0⟩ := f
  cases rerr with
  | none =>
    rcases Nat.eq_zero_or_pos rn with hrn | hrn
    · by_cases hw : wl < wc <;> simp [FB.fillStep, hw, hrn]
    · have hrn2 : ¬ rn = 0 := by omega
      by_cases hw : wl < wc <;> simp [FB.fillStep, hw, hrn, hrn2]
  | some e =>
    cases e with
    | eof =>
      rcases Nat.eq_zero_or_pos rn with hrn | hrn
      · by_cases hw : wl < wc <;> simp [FB.fillStep, hw, hrn]
      · have hrn2 : ¬ rn = 0 := by omega
        by_cases hw : wl < wc <;> simp [FB.fillStep, hw, hrn, hrn2]
    | err ec =>
      by_cases hw : wl < wc <;> simp [FB.fillStep, hw]

/-- Witness for C5 as amended: end-of-stream together with two rows is
normalised to no error with the offset reset. -/
theorem fill_step_amended_witness :
    (FB.fillStep ⟨3, 5, 2, 1, 4⟩ 2 (some RErr.eof)).2 = none ∧
    (FB.fillStep ⟨3, 5, 2, 1, 4⟩ 2 (some RErr.eof)).1.off = 0 :=
  (fill_step_amended ⟨3, 5, 2, 1, 4⟩ 2 (some RErr.eof)).2.1 rfl (by decide)

/-! The adaptive spill-sort orchestrator (SortReader), claims C1 and
C4. -/

/-- Length and capacity of the working frame of SortReader. -/
structure Dims where
  len : Nat
  cap : Nat
deriving DecidableEq

/-- The five-percent deviation test of SortReader.  The Go code
computes math.Abs over float64 of (len - target) / target and compares
it with 0.05; the comparison is modelled exactly over the integers as
20 * (len - target).natAbs > target. -/
def ratioExceeds5pct (len target : Nat) : Bool :=
  20 * ((len : Int) - (target : Int)).natAbs > target

/-- The target row count of the recalibration: bytes per row from the
spilled size, target rows from the spill target over bytes per row,
floored at the minimum batch size. -/
def targetRowsFor (spillTarget sbs n size : Nat) : Nat :=
  let bytesPerRow := size / n
  let targetRows0 := spillTarget / bytesPerRow
  if targetRows0 < sbs then sbs else targetRows0

/-- The per-batch recalibration of SortReader (lines after a non-final
spill): a resize to the target row count, by view or by fresh
allocation, only outside the five-percent band. -/
def calibrate (spillTarget sbs : Nat) (f : Dims) (n size : Nat) : Dims :=
  if ratioExceeds5pct f.len (targetRowsFor spillTarget sbs n size) then
    if targetRowsFor spillTarget sbs n size ≤ f.cap then
      { len := targetRowsFor spillTarget sbs n size, cap := f.cap }
    else { len := targetRowsFor spillTarget sbs n size, cap := targetRowsFor spillTarget sbs n size }
  else f

/-- The read-sort-spill loop of SortReader over a pure input stream.
The sorter of the kernel.Sorter contract is the parameter sortFn; the
byte count the spill store reports for a spilled run is the parameter
spillSize (both are external collaborators, modelled from the spec).
ReadFull fills the frame unless the stream ends first, so a batch is
final exactly when fewer rows remain than the frame holds; each batch
is sorted and spilled as one run, and after every non-final batch the
frame is recalibrated.  The fuel is the one extra unfolding beyond the
row count, enough because every non-final batch consumes a full,
positive frame. -/
def sortLoopF (sortFn : List α → List α) (spillSize : List α → Nat) (spillTarget sbs : Nat) :
    Nat → List α → Dims → List (List α)
  | 0, _, _ => []
  | fuel + 1, s, d =>
    let n := min d.len s.length
    let g := sortFn (s.take n)
    if s.length < d.len then [g]
    else g :: sortLoopF sortFn spillSize spillTarget sbs fuel (s.drop n)
      (calibrate spillTarget sbs d n (spillSize g))

/-- SortReader: run the spill loop starting from the canary frame of
16384 rows, then merge the resulting runs with a merge reader whose
buffers hold the minimum batch size of rows. -/
def sortReader (lt : α → α → Bool) [Inhabited α] (sortFn : List α → List α)
    (spillSize : List α → Nat) (spillTarget sbs : Nat) (input : List α) :
    Except RErr (MergeState α) :=
  newMergeReader lt sbs
    ((sortLoopF sortFn spillSize spillTarget sbs (input.length + 1) input ⟨16384, 16384⟩).map
      (fun run => SReader.mk run none))

/-- The resize rule in the words of the specification: a target of
spillTarget over bytes-per-row raised to the minimum batch size, a
resize exactly when the current length deviates from the target by
more than five percent, shrinking via a view when the target fits the
existing capacity and allocating a batch of the target capacity
otherwise, and no change inside the band. -/
def specResize (spillTarget sbs : Nat) (f : Dims) (n size : Nat) : Dims :=
  if 20 * ((f.len : Int) - (max (spillTarget / (size / n)) sbs : Nat)).natAbs >
      max (spillTarget / (size / n)) sbs then
    if max (spillTarget / (size / n)) sbs ≤ f.cap then
      { len := max (spillTarget / (size / n)) sbs, cap := f.cap }
    else { len := max (spillTarget / (size / n)) sbs, cap := max (spillTarget / (size / n)) sbs }
  else f

/-- C4: after every non-final batch of n rows spilled as size bytes
the loop recalibrates the frame with exactly the resize rule of the
specification: target rows spillTarget over (size over n) raised to
the minimum batch size, resize only outside the five-percent band,
by view when the target fits the capacity, else by fresh allocation. -/
theorem calibrate_spec (spillTarget sbs : Nat) (f : Dims) (n size : Nat)
    (_hn : 0 < n) (_hbpr : 0 < size / n) :
    calibrate spillTarget sbs f n size = specResize spillTarget sbs f n size ∧
    (∀ (sortFn : List α → List α) (spillSize : List α → Nat) (fuel : Nat) (s : List α) (d : Dims),
      ¬ s.length < d.len →
      sortLoopF sortFn spillSize spillTarget sbs (fuel + 1) s d =
        sortFn (s.take (min d.len s.length)) ::
          sortLoopF sortFn spillSize spillTarget sbs fuel (s.drop (min d.len s.length))
            (calibrate spillTarget sbs d (min d.len s.length)
              (spillSize (sortFn (s.take (min d.len s.length)))))) := by
  constructor
  · have hmax : targetRowsFor spillTarget sbs n size = max (spillTarget / (size / n)) sbs := by
      show (if spillTarget / (size / n) < sbs then sbs else spillTarget / (size / n)) = _
      by_cases h : spillTarget / (size / n) < sbs
      · rw [if_pos h, Nat.max_eq_right h.le]
      · rw [if_neg h, Nat.max_eq_left (by omega)]
    unfold calibrate specResize ratioExceeds5pct
    simp only [hmax, decide_eq_true_eq]
  · intro sortFn spillSize fuel s d hns
    simp only [sortLoopF, if_neg hns]

/-- Witness for C4 at concrete sizes: 16384 rows spilled as 163840
bytes against a 100000-byte target shrink the frame to 10000 rows. -/
theorem calibrate_spec_witness :
    calibrate 100000 1024 ⟨16384, 16384⟩ 16384 163840 =
      specResize 100000 1024 ⟨16384, 16384⟩ 16384 163840 ∧
    calibrate 100000 1024 ⟨16384, 16384⟩ 16384 163840 = ⟨10000, 16384⟩ := by
  refine ⟨((calibrate_spec (α := Nat) 100000 1024 ⟨16384, 16384⟩ 16384 163840
    (by decide) (by decide))).1, ?_⟩
  decide

/-- The recalibrated frame length stays positive (it is either
unchanged or at least the minimum batch size). -/
theorem calibrate_len_pos {spillTarget sbs : Nat} (hsbs : 0 < sbs) (f : Dims) (n size : Nat)
    (hf : 0 < f.len) : 0 < (calibrate spillTarget sbs f n size).len := by
  have htr : 0 < targetRowsFor spillTarget sbs n size := by
    show 0 < (if spillTarget / (size / n) < sbs then sbs else spillTarget / (size / n))
    split <;> omega
  unfold calibrate
  split
  · split
    · exact htr
    · exact htr
  · exact hf

/-- The spill loop with enough fuel produces runs that are each sorted
and jointly a permutation of the input. -/
theorem sortLoopF_spec {lt : α → α → Bool} (sortFn : List α → List α)
    (spillSize : List α → Nat) (spillTarget sbs : Nat) (hsbs : 0 < sbs)
    (hperm : ∀ l, (sortFn l).Perm l) (hsort : ∀ l, SortedL lt (sortFn l)) :
    ∀ (fuel : Nat) (s : List α) (d : Dims), 0 < d.len → s.length < fuel →
      ((sortLoopF sortFn spillSize spillTarget sbs fuel s d).flatten).Perm s ∧
      ∀ run ∈ sortLoopF sortFn spillSize spillTarget sbs fuel s d, SortedL lt run := by
  intro fuel
  induction fuel with
  | zero =>
    intro s d hd hlen
    omega
  | succ fuel ih =>
    intro s d hd hlen
    by_cases heof : s.length < d.len
    · have hmin : min d.len s.length = s.length := by omega
      have hrun : sortLoopF sortFn spillSize spillTarget sbs (fuel + 1) s d = [sortFn s] := by
        simp only [sortLoopF, if_pos heof, hmin, List.take_length]
      rw [hrun]
      constructor
      · simpa using hperm s
      · intro run hr
        simp only [List.mem_singleton] at hr
        subst hr
        exact hsort s
    · have hmin : min d.len s.length = d.len := by omega
      have hrun : sortLoopF sortFn spillSize spillTarget sbs (fuel + 1) s d =
          sortFn (s.take d.len) :: sortLoopF sortFn spillSize spillTarget sbs fuel (s.drop d.len)
            (calibrate spillTarget sbs d d.len (spillSize (sortFn (s.take d.len)))) := by
        simp only [sortLoopF, if_neg heof, hmin]
      have hlen2 : (s.drop d.len).length < fuel := by
        simp only [List.length_drop]
        omega
      obtain ⟨ihperm, ihsort⟩ := ih (s.drop d.len)
        (calibrate spillTarget sbs d d.len (spillSize (sortFn (s.take d.len))))
        (calibrate_len_pos hsbs d _ _ hd) hlen2
      rw [hrun]
      constructor
      · show ((sortFn (s.take d.len)) ++ _).Perm s
        have happ : (s.take d.len ++ s.drop d.len).Perm s := by
          rw [List.take_append_drop]
        exact ((hperm (s.take d.len)).append ihperm).trans happ
      · intro run hr
        rcases List.mem_cons.mp hr with hr | hr
        · subst hr
          exact hsort _
        · exact ihsort run hr

/-- C1: for every finite input stream and every total-order
comparator, with a conforming sorter and any byte accounting by the
spill store, SortReader succeeds and its output stream, read to
completion, is a permutation of the input that is non-decreasing under
the comparator. -/
theorem SortReader_sorted_perm [Inhabited α] {lt : α → α → Bool}
    (hA : LtAsymm lt) (hT : LtCompTrans lt)
    (sortFn : List α → List α) (hperm : ∀ l, (sortFn l).Perm l)
    (hsort : ∀ l, SortedL lt (sortFn l))
    (spillSize : List α → Nat) (spillTarget sbs : Nat) (hsbs : 0 < sbs)
    (input : List α) (c : Nat) (hc : 0 < c) :
    ∃ m, sortReader lt sortFn spillSize spillTarget sbs input = Except.ok m ∧
      (readAll lt m c).Perm input ∧ SortedL lt (readAll lt m c) := by
  obtain ⟨hjperm, hruns⟩ := sortLoopF_spec sortFn spillSize spillTarget sbs hsbs hperm hsort
    (input.length + 1) input ⟨16384, 16384⟩ (by decide) (by omega)
  obtain ⟨m, hok, hperm2, hsorted2, _⟩ := mergeReaderOk hA hT hsbs hc
    (sortLoopF sortFn spillSize spillTarget sbs (input.length + 1) input ⟨16384, 16384⟩) hruns
  exact ⟨m, hok, hperm2.trans hjperm, hsorted2⟩

/-- An insertion sort over the comparator, used to instantiate the
sorter contract in concrete evaluations. -/
def insertByLt (lt : α → α → Bool) (a : α) : List α → List α
  | [] => [a]
  | b :: t => if lt b a then b :: insertByLt lt a t else a :: b :: t

def sortByLt (lt : α → α → Bool) : List α → List α
  | [] => []
  | a :: t => insertByLt lt a (sortByLt lt t)

theorem insertByLt_perm (lt : α → α → Bool) (a : α) :
    ∀ l, (insertByLt lt a l).Perm (a :: l) := by
  intro l
  induction l with
  | nil => exact List.Perm.refl _
  | cons b t ih =>
    simp only [insertByLt]
    split
    · exact (ih.cons b).trans (List.Perm.swap a b t)
    · exact List.Perm.refl _

theorem sortByLt_perm (lt : α → α → Bool) : ∀ l, (sortByLt lt l).Perm l := by
  intro l
  induction l with
  | nil => exact List.Perm.refl _
  | cons a t ih =>
    exact (insertByLt_perm lt a (sortByLt lt t)).trans (ih.cons a)

theorem insertByLt_sorted {lt : α → α → Bool} (hA : LtAsymm lt) (hT : LtCompTrans lt) (a : α) :
    ∀ l, SortedL lt l → SortedL lt (insertByLt lt a l) := by
  intro l
  induction l with
  | nil => intro _; exact List.pairwise_cons.mpr ⟨by simp, List.Pairwise.nil⟩
  | cons b t ih =>
    intro hs
    obtain ⟨hb, ht⟩ := List.pairwise_cons.mp hs
    simp only [insertByLt]
    split
    · rename_i hba
      refine List.pairwise_cons.mpr ⟨?_, ih ht⟩
      intro x hx
      have hx2 : x ∈ a :: t := (insertByLt_perm lt a t).subset hx
      rcases List.mem_cons.mp hx2 with hxa | hxt
      · subst hxa
        exact hA _ _ hba
      · exact hb x hxt
    · rename_i hba
      refine List.pairwise_cons.mpr ⟨?_, hs⟩
      intro x hx
      rcases List.mem_cons.mp hx with hxb | hxt
      · subst hxb
        simpa [Rle] using hba
      · have hab : Rle lt a b := by simpa [Rle] using hba
        exact hT _ _ _ hab (hb x hxt)

theorem sortByLt_sorted {lt : α → α → Bool} (hA : LtAsymm lt) (hT : LtCompTrans lt) :
    ∀ l, SortedL lt (sortByLt lt l) := by
  intro l
  induction l with
  | nil => exact List.Pairwise.nil
  | cons a t ih => exact insertByLt_sorted hA hT a (sortByLt lt t) ih

/-- Witness for C1: sorting the stream 5,3,1,4,2 with the natural
order comparator. -/
theorem SortReader_sorted_perm_witness :
    ∃ m, sortReader natLt (sortByLt natLt) (fun l => 8 * l.length) 64 2 [5, 3, 1, 4, 2] =
        Except.ok m ∧
      (readAll natLt m 3).Perm [5, 3, 1, 4, 2] ∧ SortedL natLt (readAll natLt m 3) :=
  SortReader_sorted_perm natLt_asymm natLt_comptrans (sortByLt natLt) (sortByLt_perm natLt)
    (sortByLt_sorted natLt_asymm natLt_comptrans) (fun l => 8 * l.length) 64 2 (by decide)
    [5, 3, 1, 4, 2] 3 (by decide)

/-! The reshuffle operator (claims C8 and C9). -/

/-- A Dep as the operator graph declares it: the upstream slice, the
shuffle (wide) flag, whether a partitioner is attached (nil for
reshuffle) and the expand flag. -/
structure DepM (σ : Type) where
  slice : σ
  shuffle : Bool
  hasPartitioner : Bool
  expand : Bool
deriving DecidableEq

/-- A reshuffle operator node: a generated name and the embedded
upstream slice, whose unoverridden methods it inherits through struct
embedding. -/
structure ReshuffleSlice (σ : Type) where
  name : Nat
  parent : σ
deriving DecidableEq

/-- Modelled from the spec: the slice algebra and the combinability
check canMakeCombiningFrame are declared outside the verified source;
an upstream slice is abstract and the check is a function returning an
error message on failure.  Reshuffle: a failing check raises the
construction-time error (typecheck.Panic, modelled as the error
branch) and creates no node; otherwise exactly one new node embedding
the upstream slice is created, carrying the generated name. -/
def Reshuffle {σ : Type} (check : σ → Option String) (newName : Nat) (s : σ) :
    Except String (ReshuffleSlice σ) :=
  match check s with
  | some msg => Except.error msg
  | none => Except.ok { name := newName, parent := s }

/-- NumDep: exactly one dependency. -/
def ReshuffleSlice.numDep {σ : Type} (_r : ReshuffleSlice σ) : Nat := 1

/-- Dep(i): the one dependency on the embedded slice, marked as a
shuffle dependency, with no partitioner and no expansion. -/
def ReshuffleSlice.dep {σ : Type} (r : ReshuffleSlice σ) (_i : Nat) : DepM σ :=
  { slice := r.parent, shuffle := true, hasPartitioner := false, expand := false }

/-- Combiner: none (slicefunc.Nil). -/
def ReshuffleSlice.combiner {σ : Type} (_r : ReshuffleSlice σ) : Option Nat := none

/-- The output schema, inherited from the embedded upstream slice. -/
def ReshuffleSlice.schema {σ : Type} (schemaOf : σ → List Nat) (r : ReshuffleSlice σ) :
    List Nat :=
  schemaOf r.parent

/-- reshuffleSlice.Reader: with exactly one dependency reader it
returns that reader unmodified; any other count is a precondition
panic, modelled as none. -/
def ReshuffleSlice.reader {σ ρ : Type} (_r : ReshuffleSlice σ) (_shard : Nat) (deps : List ρ) :
    Option ρ :=
  if h : deps.length = 1 then some (deps.get ⟨0, by omega⟩) else none

/-- C8: Reshuffle on a slice failing the combinability check raises
the construction-time error and creates no node; on a compatible slice
it creates exactly one node whose output schema equals the upstream
schema, with exactly one dependency marked as a shuffle dependency on
the upstream and no combiner. -/
theorem Reshuffle_spec {σ : Type} (check : σ → Option String) (newName : Nat) (s : σ) :
    (∀ msg, check s = some msg → Reshuffle check newName s = Except.error msg) ∧
    (check s = none → ∃ r, Reshuffle check newName s = Except.ok r ∧
      r.numDep = 1 ∧
      (∀ i, (r.dep i).slice = s ∧ (r.dep i).shuffle = true ∧
        (r.dep i).hasPartitioner = false ∧ (r.dep i).expand = false) ∧
      r.combiner = none ∧
      ∀ schemaOf : σ → List Nat, ReshuffleSlice.schema schemaOf r = schemaOf s) := by
  constructor
  · intro msg hmsg
    unfold Reshuffle
    rw [hmsg]
  · intro hok
    refine ⟨{ name := newName, parent := s }, ?_, rfl, fun i => ⟨rfl, rfl, rfl, rfl⟩, rfl,
      fun schemaOf => rfl⟩
    unfold Reshuffle
    rw [hok]

/-- Witness for C8: a check rejecting zero and accepting one. -/
theorem Reshuffle_spec_witness :
    Reshuffle (fun v : Nat => if v = 0 then some "bad" else none) 7 0 = Except.error "bad" ∧
    (∃ r, Reshuffle (fun v : Nat => if v = 0 then some "bad" else none) 7 1 = Except.ok r ∧
      r.numDep = 1 ∧
      (∀ i, (r.dep i).slice = 1 ∧ (r.dep i).shuffle = true ∧
        (r.dep i).hasPartitioner = false ∧ (r.dep i).expand = false) ∧
      r.combiner = none ∧
      ∀ schemaOf : Nat → List Nat, ReshuffleSlice.schema schemaOf r = schemaOf 1) :=
  ⟨(Reshuffle_spec (fun v : Nat => if v = 0 then some "bad" else none) 7 0).1 "bad" rfl,
   (Reshuffle_spec (fun v : Nat => if v = 0 then some "bad" else none) 7 1).2 rfl⟩

/-- C9: Reader on a reshuffle node with exactly one dependency reader
returns that reader itself, unmodified, never reaching the panic
branch; with any other number of dependency readers it halts with the
precondition panic (modelled as none). -/
theorem ReshuffleSlice_reader_spec {σ ρ : Type} (r : ReshuffleSlice σ) (shard : Nat)
    (deps : List ρ) :
    (∀ d, deps = [d] → ReshuffleSlice.reader r shard deps = some d) ∧
    (deps.length ≠ 1 → ReshuffleSlice.reader r shard deps = none) := by
  constructor
  · intro d hd
    subst hd
    rfl
  · intro hne
    unfold ReshuffleSlice.reader
    rw [dif_neg hne]

/-- Witness for C9: one dependency passes through, two panic. -/
theorem ReshuffleSlice_reader_spec_witness :
    ReshuffleSlice.reader (⟨7, 0⟩ : ReshuffleSlice Nat) 3 [42] = some 42 ∧
    ReshuffleSlice.reader (⟨7, 0⟩ : ReshuffleSlice Nat) 3 [1, 2] = none :=
  ⟨(ReshuffleSlice_reader_spec (⟨7, 0⟩ : ReshuffleSlice Nat) 3 [42]).1 42 rfl,
   (ReshuffleSlice_reader_spec (⟨7, 0⟩ : ReshuffleSlice Nat) 3 [1, 2]).2 (by decide)⟩

end BigsliceSpec
